import Mathlib

/-! Verification of the genome-spy repository's scale-resolution engine and of
two list algorithms of its gene track / rect mark (`clipRects`,
`parseCompressedRefseqGeneTsv` lane assignment).

JavaScript numbers are modelled as `Int`: every claim checked here is purely
order-theoretic (comparisons, min/max), so any linearly ordered carrier is
faithful, and the genomic coordinates involved are integral.
-/

namespace GenomeSpy

/-- Modelled from the spec: the repository's `Interval` class
(`src/utils/interval.js`) is not under `src/`; it is only imported and used
there.  Spec §3: "`{lower: number, upper: number}`.  Invariant:
`lower <= upper`. ... Immutable; a merge produces a new Interval." -/
structure Interval where
  lower : Int
  upper : Int
deriving DecidableEq, Repr

/-- Modelled from the spec (§4.1): "`merge(other) -> Interval` returns
`{lower: min(a.lower,b.lower), upper: max(a.upper,b.upper)}`". -/
def Interval.merge (a b : Interval) : Interval :=
  ⟨min a.lower b.lower, max a.upper b.upper⟩

/-- Modelled from the spec (§3): "width (`upper - lower`)". -/
def Interval.width (a : Interval) : Int :=
  a.upper - a.lower

/-- A rect spec consumed by `RectMark` (`src/unnamed/part_000`).  The source
objects carry `x`, `x2`, `y`, `y2` (see `findDatum`); `clipRects` reads and
rewrites only `x`/`x2`, the other fields stand for the data a clipped copy
inherits from its prototype. -/
structure Rect where
  x : Int
  x2 : Int
  y : Int
  y2 : Int
deriving DecidableEq, Repr

/-- Function `clipRects` from `src/unnamed/part_000` lines 728-751: a rect entirely
outside the interval is culled, a rect entirely inside is pushed as is, and
a straddling rect is pushed as a copy with `x`/`x2` clamped to the interval. -/
def clipRects (rects : List Rect) (interval : Interval) : List Rect :=
  match rects with
  | [] => []
  | rect :: rest =>
    if rect.x2 < interval.lower ∨ rect.x > interval.upper then
      clipRects rest interval
    else if rect.x ≥ interval.lower ∧ rect.x2 ≤ interval.upper then
      rect :: clipRects rest interval
    else
      { rect with x := max rect.x interval.lower, x2 := min rect.x2 interval.upper } ::
        clipRects rest interval

/-- The per-rect clipping rule as the claim states it: drop a rect with
`x2 < lower` or `x > upper`, pass a rect with `x >= lower` and `x2 <= upper`
through unchanged, and replace every other rect by a copy with `x` clamped to
`max(x, lower)` and `x2` clamped to `min(x2, upper)`. -/
def clipRectClaim (interval : Interval) (rect : Rect) : Option Rect :=
  if rect.x2 < interval.lower ∨ rect.x > interval.upper then none
  else if interval.lower ≤ rect.x ∧ rect.x2 ≤ interval.upper then some rect
  else some { rect with x := max rect.x interval.lower, x2 := min rect.x2 interval.upper }

/-- The search `lanes.findIndex(end => end < g.interval.lower)` from
`src/unnamed/part_000` line 457, specialised to the predicate used there. -/
def findLane (lower : Int) : List Int → Option Nat
  | [] => none
  | e :: rest => if e < lower then some 0 else (findLane lower rest).map (· + 1)

/-- One iteration of the lane-assignment loop of `parseCompressedRefseqGeneTsv`
(`src/unnamed/part_000` lines 456-463): find the first lane whose recorded end
lies strictly left of the gene, otherwise `lanes.push(0) - 1` opens a fresh
lane; the chosen lane's end becomes the gene's upper bound.  Returns the lane
number together with the updated `lanes` array. -/
def laneStep (lanes : List Int) (g : Interval) : Nat × List Int :=
  match findLane g.lower lanes with
  | some laneNumber => (laneNumber, lanes.set laneNumber g.upper)
  | none =>
    let laneNumber := (lanes ++ [0]).length - 1
    (laneNumber, (lanes ++ [0]).set laneNumber g.upper)

/-- The `genes.forEach` lane-assignment loop (`src/unnamed/part_000` lines
456-463), threading the `lanes` array and recording `g.lane` on each gene. -/
def assignLanesGo (lanes : List Int) : List Interval → List (Interval × Nat)
  | [] => []
  | g :: gs =>
    let p := laneStep lanes g
    (g, p.1) :: assignLanesGo p.2 gs

/-- Lane assignment of `parseCompressedRefseqGeneTsv` (`src/unnamed/part_000`
lines 452-463): genes are sorted by `interval.lower` ascending
(`genes.sort((a, b) => a.interval.lower - b.interval.lower)`) and then each is
assigned the first free lane.  The TSV parsing, chromosome filtering and
coordinate mapping preceding line 452 are external collaborators; a gene is
represented by its precomputed `interval`. -/
def assignLanes (genes : List Interval) : List (Interval × Nat) :=
  assignLanesGo []
    (List.insertionSort (fun a b : Interval => a.lower ≤ b.lower) genes)

/-- Modelled from the spec: the scale resolve policy values of a
`ResolveConfig` (§3) — the resolution engine itself (`src/view/resolution.js`
and the view classes) is not under `src/`, only its test
(`src/src/view/resolution.test.js`) and callers are.  A channel's policy is
`"shared"` or `"independent"`; an absent entry means `"shared"`. -/
inductive ResolvePolicy where
  | shared : ResolvePolicy
  | independent : ResolvePolicy
deriving DecidableEq, Repr

/-- Modelled from the spec: ChannelDescriptor (§3), flattened to the parts the
resolution engine reads — `field`, `title`, `axis.title`, `scale.domain` and
`value`.  The claims exercise only quantitative channels, so the `type` tag
and the nominal/ordinal machinery are omitted. -/
structure ChannelDef where
  fieldName : Option String := none
  title : Option String := none
  axisTitle : Option String := none
  scaleDomain : Option Interval := none
  value : Option Int := none
deriving DecidableEq, Repr

/-- Modelled from the spec: a Member (glossary: "a (view, channel) pair
registered with a Resolution") — the registering view's tree path, its channel
descriptor, and the data collaborator's extent for the descriptor's field
(§6, `getExtent(field) -> Interval`). -/
structure Member where
  view : List Nat
  channelDef : ChannelDef
  dataExtent : Option Interval
deriving DecidableEq, Repr

/-- Modelled from the spec (§4.2): the member's contribution to the merged
domain — "Explicit `scale.domain` overrides on any single member, if present,
take precedence and short-circuit per-field extent computation for that
member". -/
def Member.extent (m : Member) : Option Interval :=
  m.channelDef.scaleDomain <|> m.dataExtent

/-- Modelled from the spec (§4.2, getTitle rule 3): a member's "best available
label (same three-level rule, recursively, per member)" — axis title, then
channel title, then field name. -/
def Member.label (m : Member) : Option String :=
  m.channelDef.axisTitle <|> m.channelDef.title <|> m.channelDef.fieldName

/-- Modelled from the spec (§3): a ScaleResolution's "ordered sequence of
contributing member descriptors (insertion order significant for title
joining ...)".  The lazily-computed domain/scale/title are modelled as pure
functions of the member list; the explicit cache and dirty flag of §9 live in
`CachedResolution` below. -/
structure ScaleResolution where
  members : List Member
deriving DecidableEq, Repr

/-- One step of the repeated `Interval.merge` union of §4.2 (`none` is the
state before the first extent). -/
def mergeStep : Option Interval → Interval → Option Interval
  | none, x => some x
  | some a, x => some (a.merge x)

/-- Modelled from the spec (§4.2): "the union (via repeated `Interval.merge`)"
of a list of extents; `none` for the empty list. -/
def mergeAll (l : List Interval) : Option Interval :=
  l.foldl mergeStep none

/-- Modelled from the spec (§4.2 and its edge-case policy): quantitative
`getDomain` — the union of the members' extents; a resolution with zero
members (or with no extent-contributing member) returns `undefined`, i.e.
`none`, rather than throwing. -/
def ScaleResolution.getDomain (r : ScaleResolution) : Option Interval :=
  mergeAll (r.members.filterMap Member.extent)

/-- Modelled from the spec (§4.2): the materialized scale object "mapping
domain → a visual range appropriate to the channel".  Only its domain is
observable to the claims; range and renderer machinery are external. -/
structure Scale where
  domain : Interval
deriving DecidableEq, Repr

/-- Modelled from the spec (§4.2): `getScale` materializes a scale over the
merged domain, `undefined` for a memberless resolution. -/
def ScaleResolution.getScale (r : ScaleResolution) : Option Scale :=
  (r.getDomain).map Scale.mk

/-- Modelled from the spec (§4.2, getTitle rule 3): "deduplicating
consecutive identical labels". -/
def dedupConsecutive : List String → List String
  | [] => []
  | [x] => [x]
  | x :: y :: rest =>
    if x = y then dedupConsecutive (y :: rest)
    else x :: dedupConsecutive (y :: rest)

/-- Modelled from the spec (§4.2): `getTitle` resolution order, first
non-empty wins: (1) an explicit `axis.title` on any member (first member that
declares one), (2) an explicit channel `title` on any member, (3) if multiple
members contribute distinct field names, the members' labels joined with
`", "` in member-insertion order after consecutive deduplication, (4) the
field name itself; `none` when no member contributes anything (zero-member
edge case). -/
def ScaleResolution.getTitle (r : ScaleResolution) : Option String :=
  match r.members.findSome? (fun m => m.channelDef.axisTitle) with
  | some t => some t
  | none =>
    match r.members.findSome? (fun m => m.channelDef.title) with
    | some t => some t
    | none =>
      let fieldNames := r.members.filterMap (fun m => m.channelDef.fieldName)
      if 2 ≤ fieldNames.eraseDups.length then
        some (String.intercalate ", " (dedupConsecutive (r.members.filterMap Member.label)))
      else
        fieldNames.head?

mutual
/-- Modelled from the spec (§3 ViewNode): a view node is a `unit` leaf with
its channel descriptors and per-field data extents (the data collaborator's
`getExtent`, §6), or a `layer` compositing children and carrying its scale
`ResolveConfig` (channel → policy).  Concat views add nothing the claims
exercise (the repository's resolution tests use unit and layer nodes only)
and are omitted. -/
inductive ViewSpec where
  | unit (encoding : List (String × ChannelDef)) (dataExtents : List (String × Interval)) : ViewSpec
  | layer (resolve : List (String × ResolvePolicy)) (children : ViewList) : ViewSpec

/-- Children of a layer node (spec §3: ownership of child nodes is exclusive). -/
inductive ViewList where
  | nil : ViewList
  | cons (head : ViewSpec) (tail : ViewList) : ViewList
end

def ViewList.get? : ViewList → Nat → Option ViewSpec
  | .nil, _ => none
  | .cons c _, 0 => some c
  | .cons _ cs, n + 1 => cs.get? n

/-- The subview at a path of child indices below the given node. -/
def subviewAt : ViewSpec → List Nat → Option ViewSpec
  | v, [] => some v
  | .unit _ _, _ :: _ => none
  | .layer _ cs, i :: p =>
    match cs.get? i with
    | some c => subviewAt c p
    | none => none

/-- Modelled from the spec (§3 ResolveConfig): the effective scale policy of a
node for a channel; "Default (absent) = `"shared"`". -/
def resolvePolicyOf (v : ViewSpec) (c : String) : ResolvePolicy :=
  match v with
  | .unit _ _ => ResolvePolicy.shared
  | .layer resolve _ => (resolve.lookup c).getD ResolvePolicy.shared

mutual
/-- Paths of all unit (leaf) views below a node, in pre-order — spec §5:
"member registration order is deterministic (tree pre-order traversal)". -/
def unitPathsV : ViewSpec → List (List Nat)
  | .unit _ _ => [[]]
  | .layer _ cs => unitPathsL 0 cs

def unitPathsL : Nat → ViewList → List (List Nat)
  | _, .nil => []
  | i, .cons c cs => (unitPathsV c).map (fun p => i :: p) ++ unitPathsL (i + 1) cs
end

/-- Modelled from the spec (§4.3 top-down phase): walking the path from the
tree root, a `"shared"` node lets its subtree bind upward past it, while an
`"independent"` node makes each of its children a resolution root — "for
LayerView semantics, 'independent' on a layer means each child of the layer
gets its own root, not the layer itself".  `acc` is the path of the node
being visited, `cand` the current candidate root. -/
def rootGo (tree : ViewSpec) (c : String) : List Nat → List Nat → List Nat → List Nat
  | _, cand, [] => cand
  | acc, cand, i :: rest =>
    match subviewAt tree acc with
    | some v =>
      match resolvePolicyOf v c with
      | ResolvePolicy.shared => rootGo tree c (acc ++ [i]) cand rest
      | ResolvePolicy.independent => rootGo tree c (acc ++ [i]) (acc ++ [i]) rest
    | none => cand

/-- The resolution root (spec glossary) of the node at `p` for channel `c`. -/
def resolutionRootOf (tree : ViewSpec) (c : String) (p : List Nat) : List Nat :=
  rootGo tree c [] [] p

/-- Modelled from the spec (§3): the Member a unit view registers for a
channel — its descriptor plus the data extent of its field; "A descriptor
with `value` set (and no `field`) is a constant encoding and never
participates in scale resolution". -/
def memberOfUnit (tree : ViewSpec) (p : List Nat) (c : String) : Option Member :=
  match subviewAt tree p with
  | some (ViewSpec.unit encoding dataExtents) =>
    match encoding.lookup c with
    | some cd =>
      if cd.value.isSome && cd.fieldName.isNone then none
      else some ⟨p, cd, cd.fieldName.bind (fun f => dataExtents.lookup f)⟩
    | none => none
  | _ => none

/-- Modelled from the spec (§4.3): the members of the ScaleResolution owned by
the node at `q` for channel `c` — every unit view of the tree whose resolution
root for `c` is `q`, registered in pre-order (§5). -/
def membersAt (tree : ViewSpec) (q : List Nat) (c : String) : List Member :=
  ((unitPathsV tree).filter (fun p => resolutionRootOf tree c p == q)).filterMap
    (fun p => memberOfUnit tree p c)

/-- Walk from a node towards the tree root (the path is processed reversed,
innermost index first) and return the first ancestor-or-self that owns a
nonempty resolution for the channel.  Spec §4.2 edge case: an empty
(speculative) resolution "must not [be exposed] to lookups". -/
def lookupRootRev (tree : ViewSpec) (c : String) : List Nat → Option (List Nat)
  | [] => if (membersAt tree [] c).isEmpty then none else some []
  | i :: rest =>
    if (membersAt tree (i :: rest).reverse c).isEmpty then lookupRootRev tree c rest
    else some (i :: rest).reverse

/-- The identity of the resolution a node is bound to: the owning node's path
(spec §3: a ScaleResolution is "uniquely identified by (owning view node,
channel name)").  Reference equality of resolutions in the claims is equality
of these identities. -/
def boundResolutionRoot (tree : ViewSpec) (p : List Nat) (c : String) : Option (List Nat) :=
  lookupRootRev tree c p.reverse

/-- Modelled from the spec (§4.4, §6) and the repository's resolution test
(`src/src/view/resolution.test.js`): `view.getResolution(channel)` returns the
resolution the node is bound to — its own when the node is a resolution root
with at least one member, otherwise the nearest such ancestor's (the test
requires `root.children[0].getResolution("y")` to observe the root's shared
resolution), and `undefined` when there is none. -/
def getResolution (tree : ViewSpec) (p : List Nat) (c : String) : Option ScaleResolution :=
  (boundResolutionRoot tree p c).map (fun q => ScaleResolution.mk (membersAt tree q c))

/-- Modelled from the spec (§9 design note and §4.2 cache semantics): the
stateful ScaleResolution with "an explicit cache field plus a dirty flag set
by `addMember`/`removeMember`"; a `none` cache field is the dirty state. -/
structure CachedResolution where
  members : List Member
  domainCache : Option (Option Interval) := none
  scaleCache : Option (Option Scale) := none
  titleCache : Option (Option String) := none
deriving DecidableEq, Repr

/-- A freshly built (possibly speculative, §4.2 edge case) resolution: all
caches dirty. -/
def CachedResolution.ofMembers (ms : List Member) : CachedResolution :=
  { members := ms }

/-- Memoized `getDomain` (spec §4.2: "result is memoized after first
computation"): returns the result with the possibly updated state. -/
def CachedResolution.getDomain (r : CachedResolution) : Option Interval × CachedResolution :=
  match r.domainCache with
  | some d => (d, r)
  | none =>
    let d := ScaleResolution.getDomain ⟨r.members⟩
    (d, { r with domainCache := some d })

/-- Memoized `getScale` (spec §4.2: "subsequent calls return the same cached
instance until invalidated"). -/
def CachedResolution.getScale (r : CachedResolution) : Option Scale × CachedResolution :=
  match r.scaleCache with
  | some s => (s, r)
  | none =>
    let s := ScaleResolution.getScale ⟨r.members⟩
    (s, { r with scaleCache := some s })

/-- Memoized `getTitle`. -/
def CachedResolution.getTitle (r : CachedResolution) : Option String × CachedResolution :=
  match r.titleCache with
  | some t => (t, r)
  | none =>
    let t := ScaleResolution.getTitle ⟨r.members⟩
    (t, { r with titleCache := some t })

/-- Modelled from the spec (§4.2): `addMember` "appends to member list;
invalidates cached scale/title/domain".  (The fatal scale-type compatibility
check concerns mixing nominal with quantitative members and is outside the
quantitative fragment the claims exercise.) -/
def CachedResolution.addMember (r : CachedResolution) (m : Member) : CachedResolution :=
  { members := r.members ++ [m] }

/-- Modelled from the spec (§4.2): `removeMember(view)` — "used on
teardown/re-resolution"; removes the members registered by the view and
invalidates the caches. -/
def CachedResolution.removeMember (r : CachedResolution) (view : List Nat) : CachedResolution :=
  { members := r.members.filter (fun m => m.view != view) }

/-- A layer with exactly two children, the shape of the repository's
resolution test spec (`src/src/view/resolution.test.js`, `layer: [...]` with
two point marks). -/
def twoChildLayer (res : List (String × ResolvePolicy)) (a b : ViewSpec) : ViewSpec :=
  ViewSpec.layer res (ViewList.cons a (ViewList.cons b ViewList.nil))

/-- The first unit view of the test spec: `y: {field: "a", type: "quantitative",
scale: {domain: [1, 2]}}`. -/
def channelDefA : ChannelDef :=
  { fieldName := some "a", scaleDomain := some ⟨1, 2⟩ }

/-- The second unit view of the test spec: `y: {field: "b", type: "quantitative",
scale: {domain: [4, 5]}}`. -/
def channelDefB : ChannelDef :=
  { fieldName := some "b", scaleDomain := some ⟨4, 5⟩ }

/-- The shape of the test's `sharedSpec` — `resolve: {scale: {y: "shared"}}`
over two unit children with fields `"a"` and `"b"` — generic in the two
`scale.domain` entries. -/
def sharedPair (sd1 sd2 : Option Interval) : ViewSpec :=
  twoChildLayer [("y", ResolvePolicy.shared)]
    (ViewSpec.unit [("y", ⟨some "a", none, none, sd1, none⟩)] [])
    (ViewSpec.unit [("y", ⟨some "b", none, none, sd2, none⟩)] [])

/-- The test's `sharedSpec`: the two-layer spec with `resolve: {scale: {y:
"shared"}}`. -/
def sharedTree : ViewSpec :=
  sharedPair (some ⟨1, 2⟩) (some ⟨4, 5⟩)

/-- The test's `independentSpec`: the two-layer spec with `resolve: {scale:
{y: "independent"}}`. -/
def independentTree : ViewSpec :=
  twoChildLayer [("y", ResolvePolicy.independent)]
    (ViewSpec.unit [("y", channelDefA)] []) (ViewSpec.unit [("y", channelDefB)] [])

/-- A generic layer marked `"independent"` for channel `c` over two unit
children (claim scenario of the `independentSpec` test). -/
def independentLayer (c : String) (d1 d2 : ChannelDef)
    (dx1 dx2 : List (String × Interval)) : ViewSpec :=
  twoChildLayer [(c, ResolvePolicy.independent)]
    (ViewSpec.unit [(c, d1)] dx1) (ViewSpec.unit [(c, d2)] dx2)

/-- The member a unit view at path `p` with descriptor `cd` and data extents
`dx` registers (the `some` case of `memberOfUnit`). -/
def unitMember (p : List Nat) (cd : ChannelDef) (dx : List (String × Interval)) : Member :=
  ⟨p, cd, cd.fieldName.bind (fun f => dx.lookup f)⟩

instance : RightCommutative mergeStep :=
  ⟨by
    intro b a1 a2
    cases b <;> simp [mergeStep, Interval.merge, Interval.mk.injEq] <;>
      constructor <;> omega⟩

instance : IsTotal Interval (fun a b => a.lower ≤ b.lower) :=
  ⟨fun a b => le_total a.lower b.lower⟩

instance : IsTrans Interval (fun a b => a.lower ≤ b.lower) :=
  ⟨fun _ _ _ hab hbc => le_trans hab hbc⟩

end GenomeSpy

namespace GenomeSpy

theorem laneStep_none (lanes : List Int) (g : Interval)
    (h : findLane g.lower lanes = none) :
    laneStep lanes g = (lanes.length, lanes ++ [g.upper]) := by
  unfold laneStep
  rw [h]
  simp [List.set_append]

theorem findLane_some (lo : Int) (lanes : List Int) (i : Nat)
    (h : findLane lo lanes = some i) :
    ∃ hi : i < lanes.length, lanes.get ⟨i, hi⟩ < lo := by
  induction lanes generalizing i with
  | nil => simp [findLane] at h
  | cons e rest ih =>
    simp only [findLane] at h
    split at h
    · cases h
      exact ⟨by simp, by simpa⟩
    · cases hfl : findLane lo rest with
      | none => rw [hfl] at h; simp at h
      | some j =>
        rw [hfl] at h
        simp only [Option.map_some'] at h
        obtain ⟨hi, hlt⟩ := ih j hfl
        cases h
        exact ⟨by simpa using Nat.succ_lt_succ hi, by simpa using hlt⟩

theorem laneStep_len (lanes : List Int) (g : Interval) :
    lanes.length ≤ (laneStep lanes g).2.length := by
  unfold laneStep
  cases hfl : findLane g.lower lanes <;> simp

theorem laneStep_lane_lt (lanes : List Int) (g : Interval) :
    (laneStep lanes g).1 < (laneStep lanes g).2.length := by
  unfold laneStep
  cases hfl : findLane g.lower lanes with
  | none => simp
  | some i =>
    obtain ⟨hi, _⟩ := findLane_some g.lower lanes i hfl
    simpa using hi

/-- The chosen lane records the gene's upper bound after the step. -/
theorem laneStep_get_lane (lanes : List Int) (g : Interval) :
    (laneStep lanes g).2.get ⟨(laneStep lanes g).1, laneStep_lane_lt lanes g⟩ = g.upper := by
  rcases hfl : findLane g.lower lanes with _ | i
  · rw [List.get_eq_getElem]
    simp only [laneStep, hfl]
    simp
  · obtain ⟨hi, _⟩ := findLane_some g.lower lanes i hfl
    rw [List.get_eq_getElem]
    simp only [laneStep, hfl]
    simp [List.getElem_set_self, hi]

/-- Lanes other than the chosen one are untouched by the step. -/
theorem laneStep_get_other (lanes : List Int) (g : Interval) (m : Nat)
    (hm : m < lanes.length) (hne : m ≠ (laneStep lanes g).1) :
    (laneStep lanes g).2.get ⟨m, Nat.lt_of_lt_of_le hm (laneStep_len lanes g)⟩ =
      lanes.get ⟨m, hm⟩ := by
  rcases hfl : findLane g.lower lanes with _ | i
  · have hm' : m ≠ lanes.length := by
      intro h
      apply hne
      rw [h]
      simp [laneStep, hfl]
    rw [List.get_eq_getElem, List.get_eq_getElem]
    simp only [laneStep, hfl]
    rw [List.getElem_set_ne (by simpa using Ne.symm hm')]
    exact List.getElem_append_left hm
  · have hm' : m ≠ i := by
      intro h
      apply hne
      rw [h]
      simp [laneStep, hfl]
    rw [List.get_eq_getElem, List.get_eq_getElem]
    simp only [laneStep, hfl]
    exact List.getElem_set_ne (Ne.symm hm') _

/-- A reused lane previously ended strictly left of the gene's lower bound. -/
theorem laneStep_reused (lanes : List Int) (g : Interval)
    (hk : (laneStep lanes g).1 < lanes.length) :
    lanes.get ⟨(laneStep lanes g).1, hk⟩ < g.lower := by
  rcases hfl : findLane g.lower lanes with _ | i
  · exfalso
    have : (laneStep lanes g).1 = lanes.length := by simp [laneStep, hfl]
    omega
  · obtain ⟨hi, hlt⟩ := findLane_some g.lower lanes i hfl
    have hkey : (laneStep lanes g).1 = i := by simp [laneStep, hfl]
    rw [List.get_eq_getElem]
    simp only [hkey]
    simpa using hlt

theorem laneStep_get_at (lanes : List Int) (g : Interval) (m : Nat)
    (hm : m < (laneStep lanes g).2.length) (heq : m = (laneStep lanes g).1) :
    (laneStep lanes g).2.get ⟨m, hm⟩ = g.upper := by
  subst heq
  exact laneStep_get_lane lanes g

theorem laneStep_reused_at (lanes : List Int) (g : Interval) (m : Nat)
    (hm : m < lanes.length) (heq : m = (laneStep lanes g).1) :
    lanes.get ⟨m, hm⟩ < g.lower := by
  subst heq
  exact laneStep_reused lanes g hm

/-- Invariant of the lane-assignment loop: (a) whenever an emitted gene's lane
already existed in the incoming `lanes` array, that array's recorded end lies
strictly left of the gene; (b) any two emitted genes sharing a lane are
strictly disjoint, the earlier one's upper bound left of the later one's lower
bound.  Only validity of the gene intervals is required; the incoming `lanes`
array is arbitrary. -/
theorem assignLanesGo_spec (gs : List Interval) : ∀ lanes : List Int,
    (∀ g ∈ gs, g.lower ≤ g.upper) →
    (∀ e ∈ assignLanesGo lanes gs, ∀ hk : e.2 < lanes.length,
        lanes.get ⟨e.2, hk⟩ < e.1.lower)
    ∧ List.Pairwise (fun a b => a.2 = b.2 → a.1.upper < b.1.lower)
        (assignLanesGo lanes gs) := by
  induction gs with
  | nil =>
    intro lanes _
    exact ⟨by simp [assignLanesGo], by simp [assignLanesGo]⟩
  | cons g gs ih =>
    intro lanes hv
    have hvg : g.lower ≤ g.upper := hv g (by simp)
    obtain ⟨ihA, ihM⟩ := ih (laneStep lanes g).2 (fun h hh => hv h (by simp [hh]))
    simp only [assignLanesGo]
    constructor
    · intro e he hk
      rcases List.mem_cons.mp he with rfl | he'
      · exact laneStep_reused lanes g hk
      · have hk' : e.2 < (laneStep lanes g).2.length :=
          Nat.lt_of_lt_of_le hk (laneStep_len lanes g)
        have hA' := ihA e he' hk'
        by_cases hcase : e.2 = (laneStep lanes g).1
        · have h1 := laneStep_reused_at lanes g e.2 hk hcase
          have h2 := laneStep_get_at lanes g e.2 hk' hcase
          omega
        · have h3 := laneStep_get_other lanes g e.2 hk hcase
          omega
    · rw [List.pairwise_cons]
      refine ⟨?_, ihM⟩
      intro b hb hlane
      have hk' : b.2 < (laneStep lanes g).2.length :=
        hlane ▸ laneStep_lane_lt lanes g
      have hA' := ihA b hb hk'
      have h2 := laneStep_get_at lanes g b.2 hk' hlane.symm
      show g.upper < b.1.lower
      omega

/-- C7: For all Intervals `a`, `b`, `c` (each with `lower <= upper`),
`Interval.merge` returns `{lower: min(a.lower,b.lower), upper:
max(a.upper,b.upper)}` as a new Interval, and merge is pure (a function of its
arguments), commutative, associative, and idempotent, so the union of N
intervals is independent of merge order (stated here as invariance of the
folded union under permutation of the interval list). -/
theorem interval_merge_algebra (a b c : Interval)
    (ha : a.lower ≤ a.upper) (hb : b.lower ≤ b.upper) (hc : c.lower ≤ c.upper) :
    a.merge b = ⟨min a.lower b.lower, max a.upper b.upper⟩
    ∧ a.merge b = b.merge a
    ∧ (a.merge b).merge c = a.merge (b.merge c)
    ∧ a.merge a = a
    ∧ (∀ l1 l2 : List Interval, List.Perm l1 l2 → mergeAll l1 = mergeAll l2) := by
  refine ⟨rfl, ?_, ?_, ?_, fun l1 l2 h => h.foldl_eq none⟩ <;>
    simp [Interval.merge, Interval.mk.injEq] <;> constructor <;> omega

/-- Witness for C7 at the concrete intervals `[1,2]`, `[4,5]`, `[0,3]`. -/
theorem interval_merge_algebra_witness :
    (1 : Int) ≤ 2 ∧ (4 : Int) ≤ 5 ∧ (0 : Int) ≤ 3
    ∧ Interval.merge ⟨1, 2⟩ ⟨4, 5⟩ = ⟨1, 5⟩
    ∧ Interval.merge ⟨1, 2⟩ ⟨4, 5⟩ = Interval.merge ⟨4, 5⟩ ⟨1, 2⟩ := by
  have h := interval_merge_algebra ⟨1, 2⟩ ⟨4, 5⟩ ⟨0, 3⟩ (by decide) (by decide) (by decide)
  exact ⟨by decide, by decide, by decide, by decide, h.2.1⟩

/-- The loop body of `clipRects`, phrased per rect as the claim states it:
drop a rect strictly outside the interval, keep an inside rect unchanged, and
clamp a straddling rect's `x`/`x2` to the interval. -/
theorem clipRects_eq_filterMap (rects : List Rect) (interval : Interval) :
    clipRects rects interval = rects.filterMap (clipRectClaim interval) := by
  induction rects with
  | nil => rfl
  | cons rect rest ih =>
    by_cases h1 : rect.x2 < interval.lower ∨ rect.x > interval.upper
    · simp [clipRects, clipRectClaim, h1, ih]
    · by_cases h2 : interval.lower ≤ rect.x ∧ rect.x2 ≤ interval.upper
      · simp [clipRects, clipRectClaim, h1, h2, ih]
      · simp [clipRects, clipRectClaim, h1, h2, ih]

/-- C9: For every interval with `lower <= upper` and every list of rects each
satisfying `x <= x2`, `clipRects` returns exactly the rects that intersect
the interval — a rect with `x2 < lower` or `x > upper` is dropped, a rect
with `x >= lower` and `x2 <= upper` is passed through unchanged, and every
other rect is replaced by a copy with `x` clamped to `max(x, lower)` and `x2`
clamped to `min(x2, upper)` — and every returned rect `r` satisfies
`lower <= r.x <= r.x2 <= upper`. -/
theorem clipRects_clips_to_interval (rects : List Rect) (interval : Interval)
    (hI : interval.lower ≤ interval.upper)
    (hR : ∀ r ∈ rects, r.x ≤ r.x2) :
    clipRects rects interval = rects.filterMap (clipRectClaim interval)
    ∧ ∀ r ∈ clipRects rects interval,
        interval.lower ≤ r.x ∧ r.x ≤ r.x2 ∧ r.x2 ≤ interval.upper := by
  refine ⟨clipRects_eq_filterMap rects interval, ?_⟩
  induction rects with
  | nil => simp [clipRects]
  | cons rect rest ih =>
    have hrect : rect.x ≤ rect.x2 := hR rect (by simp)
    have ih' := ih (fun r hr => hR r (by simp [hr]))
    intro r hr
    by_cases h1 : rect.x2 < interval.lower ∨ rect.x > interval.upper
    · rw [clipRects] at hr
      rw [if_pos h1] at hr
      exact ih' r hr
    · push_neg at h1
      by_cases h2 : rect.x ≥ interval.lower ∧ rect.x2 ≤ interval.upper
      · rw [clipRects] at hr
        rw [if_neg (by omega), if_pos h2] at hr
        rcases List.mem_cons.mp hr with rfl | hr'
        · exact ⟨h2.1, hrect, h2.2⟩
        · exact ih' r hr'
      · rw [clipRects] at hr
        rw [if_neg (by omega), if_neg h2] at hr
        rcases List.mem_cons.mp hr with rfl | hr'
        · refine ⟨le_max_right _ _, ?_, min_le_right _ _⟩
          show max rect.x interval.lower ≤ min rect.x2 interval.upper
          omega
        · exact ih' r hr'

/-- Witness for C9: one culled rect, one passed-through rect and one clamped
rect against the interval `[2, 6]`. -/
theorem clipRects_clips_to_interval_witness :
    ((⟨2, 6⟩ : Interval).lower ≤ (⟨2, 6⟩ : Interval).upper
      ∧ ∀ r ∈ [(⟨0, 10, 0, 1⟩ : Rect), ⟨-5, -3, 0, 1⟩, ⟨3, 4, 0, 1⟩], r.x ≤ r.x2)
    ∧ clipRects [⟨0, 10, 0, 1⟩, ⟨-5, -3, 0, 1⟩, ⟨3, 4, 0, 1⟩] ⟨2, 6⟩ =
        [⟨2, 6, 0, 1⟩, ⟨3, 4, 0, 1⟩]
    ∧ ∀ r ∈ clipRects [(⟨0, 10, 0, 1⟩ : Rect), ⟨-5, -3, 0, 1⟩, ⟨3, 4, 0, 1⟩] ⟨2, 6⟩,
        (2 : Int) ≤ r.x ∧ r.x ≤ r.x2 ∧ r.x2 ≤ 6 :=
  ⟨⟨by decide, by decide⟩, by decide,
    (clipRects_clips_to_interval [⟨0, 10, 0, 1⟩, ⟨-5, -3, 0, 1⟩, ⟨3, 4, 0, 1⟩] ⟨2, 6⟩
      (by decide) (by decide)).2⟩

theorem assignLanesGo_map_fst (gs : List Interval) : ∀ lanes : List Int,
    (assignLanesGo lanes gs).map Prod.fst = gs := by
  induction gs with
  | nil => intro lanes; rfl
  | cons g gs ih => intro lanes; simp [assignLanesGo, ih]

/-- C10: After the lane assignment of `parseCompressedRefseqGeneTsv`, any two
distinct genes with the same lane number have non-overlapping intervals: the
genes are emitted in ascending order of `interval.lower`, and each gene's
`interval.lower` is strictly greater than every earlier same-lane gene's
`interval.upper`. -/
theorem assignLanes_same_lane_disjoint (genes : List Interval)
    (hv : ∀ g ∈ genes, g.lower ≤ g.upper) :
    List.Sorted (fun a b : Interval => a.lower ≤ b.lower)
      ((assignLanes genes).map Prod.fst)
    ∧ ∀ (i j : Nat) (hi : i < (assignLanes genes).length)
        (hj : j < (assignLanes genes).length), i < j →
        ((assignLanes genes).get ⟨i, hi⟩).2 = ((assignLanes genes).get ⟨j, hj⟩).2 →
        ((assignLanes genes).get ⟨i, hi⟩).1.upper <
          ((assignLanes genes).get ⟨j, hj⟩).1.lower := by
  have hv' : ∀ g ∈ List.insertionSort (fun a b : Interval => a.lower ≤ b.lower) genes,
      g.lower ≤ g.upper := by
    intro g hg
    exact hv g ((List.mem_insertionSort _).mp hg)
  obtain ⟨_, hM⟩ := assignLanesGo_spec
    (List.insertionSort (fun a b : Interval => a.lower ≤ b.lower) genes) [] hv'
  constructor
  · rw [assignLanes, assignLanesGo_map_fst]
    exact List.sorted_insertionSort _ genes
  · intro i j hi hj hij hlane
    exact List.pairwise_iff_get.mp hM ⟨i, hi⟩ ⟨j, hj⟩ hij hlane

/-- Witness for C10: three genes; the first and third share lane 0 and are
disjoint, with `5 < 7`. -/
theorem assignLanes_same_lane_disjoint_witness :
    (∀ g ∈ [(⟨1, 5⟩ : Interval), ⟨2, 3⟩, ⟨7, 8⟩], g.lower ≤ g.upper)
    ∧ assignLanes [⟨1, 5⟩, ⟨2, 3⟩, ⟨7, 8⟩] = [(⟨1, 5⟩, 0), (⟨2, 3⟩, 1), (⟨7, 8⟩, 0)]
    ∧ ((assignLanes [⟨1, 5⟩, ⟨2, 3⟩, ⟨7, 8⟩]).get ⟨0, by decide⟩).1.upper <
        ((assignLanes [⟨1, 5⟩, ⟨2, 3⟩, ⟨7, 8⟩]).get ⟨2, by decide⟩).1.lower :=
  ⟨by decide, by decide,
    (assignLanes_same_lane_disjoint [⟨1, 5⟩, ⟨2, 3⟩, ⟨7, 8⟩] (by decide)).2
      0 2 (by decide) (by decide) (by decide) (by decide)⟩

theorem foldl_mergeStep_some (es : List Interval) : ∀ a : Interval,
    es.foldl mergeStep (some a) = some (es.foldl Interval.merge a) := by
  induction es with
  | nil => intro a; rfl
  | cons e es ih => intro a; simpa [mergeStep] using ih (a.merge e)

theorem mergeAll_cons (e : Interval) (es : List Interval) :
    mergeAll (e :: es) = some (es.foldl Interval.merge e) := by
  simp [mergeAll, List.foldl_cons, mergeStep, foldl_mergeStep_some]

/-- C1: For every shared ScaleResolution whose members all contribute an
extent, `getDomain()` equals the pairwise union — the fold of
`Interval.merge` over the members' extents — and the result is invariant
under permutation of the member registration order; in particular members
with extents `[1,2]` and `[4,5]` yield the domain `[1,5]`. -/
theorem getDomain_union_order_invariant (ms ms' : List Member)
    (hperm : List.Perm ms ms') :
    (∀ (e : Interval) (es : List Interval),
        ms.filterMap Member.extent = e :: es →
        ScaleResolution.getDomain ⟨ms⟩ = some (es.foldl Interval.merge e))
    ∧ ScaleResolution.getDomain ⟨ms⟩ = ScaleResolution.getDomain ⟨ms'⟩
    ∧ (∀ m1 m2 : Member, m1.extent = some ⟨1, 2⟩ → m2.extent = some ⟨4, 5⟩ →
        ScaleResolution.getDomain ⟨[m1, m2]⟩ = some ⟨1, 5⟩) := by
  refine ⟨?_, ?_, ?_⟩
  · intro e es hext
    rw [ScaleResolution.getDomain, hext, mergeAll_cons]
  · exact (hperm.filterMap Member.extent).foldl_eq none
  · intro m1 m2 h1 h2
    simp [ScaleResolution.getDomain, List.filterMap, h1, h2, mergeAll,
      mergeStep, Interval.merge]

/-- Witness for C1: two concrete members registered in both orders. -/
theorem getDomain_union_order_invariant_witness :
    List.Perm [unitMember [0] channelDefA [], unitMember [1] channelDefB []]
      [unitMember [1] channelDefB [], unitMember [0] channelDefA []]
    ∧ ScaleResolution.getDomain ⟨[unitMember [0] channelDefA [], unitMember [1] channelDefB []]⟩ =
        ScaleResolution.getDomain ⟨[unitMember [1] channelDefB [], unitMember [0] channelDefA []]⟩
    ∧ ScaleResolution.getDomain
        ⟨[unitMember [0] channelDefA [], unitMember [1] channelDefB []]⟩ = some ⟨1, 5⟩ :=
  ⟨by decide,
    (getDomain_union_order_invariant
        [unitMember [0] channelDefA [], unitMember [1] channelDefB []]
        [unitMember [1] channelDefB [], unitMember [0] channelDefA []] (by decide)).2.1,
    (getDomain_union_order_invariant
        [unitMember [0] channelDefA [], unitMember [1] channelDefB []]
        [unitMember [1] channelDefB [], unitMember [0] channelDefA []] (by decide)).2.2
      (unitMember [0] channelDefA []) (unitMember [1] channelDefB [])
      (by decide) (by decide)⟩

/-- C4: For every single-member resolution, `getTitle()` follows the
precedence `axis.title` over encoding `title` over field name: with only a
field it returns the field name, adding a `title` returns the title, and
adding an `axis.title` on top returns the axis title; instantiated at the
test's values `"a"`, `"x"`, `"z"`. -/
theorem getTitle_precedence (f t z : String) (sd ext : Option Interval) (p : List Nat) :
    ScaleResolution.getTitle ⟨[⟨p, ⟨some f, none, none, sd, none⟩, ext⟩]⟩ = some f
    ∧ ScaleResolution.getTitle ⟨[⟨p, ⟨some f, some t, none, sd, none⟩, ext⟩]⟩ = some t
    ∧ ScaleResolution.getTitle ⟨[⟨p, ⟨some f, some t, some z, sd, none⟩, ext⟩]⟩ = some z
    ∧ ScaleResolution.getTitle ⟨[⟨p, ⟨some "a", none, none, sd, none⟩, ext⟩]⟩ = some "a"
    ∧ ScaleResolution.getTitle ⟨[⟨p, ⟨some "a", some "x", none, sd, none⟩, ext⟩]⟩ = some "x"
    ∧ ScaleResolution.getTitle ⟨[⟨p, ⟨some "a", some "x", some "z", sd, none⟩, ext⟩]⟩ = some "z" := by
  refine ⟨?_, ?_, ?_, ?_, ?_, ?_⟩ <;>
    simp [ScaleResolution.getTitle, List.findSome?, List.filterMap, List.eraseDups,
      List.eraseDups.loop, List.contains, List.elem]

/-- C8: For every CachedResolution with at least one member, calling
`getScale()` or `getDomain()` (or `getTitle()`) twice with no intervening
`addMember` returns the identical memoized result — the second call returns
the very same value and leaves the state untouched — while `addMember`
resets all caches to the dirty state. -/
theorem cached_getters_memoized (r : CachedResolution) (hm : r.members ≠ []) :
    r.getDomain.2.getDomain = (r.getDomain.1, r.getDomain.2)
    ∧ r.getScale.2.getScale = (r.getScale.1, r.getScale.2)
    ∧ r.getTitle.2.getTitle = (r.getTitle.1, r.getTitle.2)
    ∧ (∀ m : Member, (r.addMember m).domainCache = none
        ∧ (r.addMember m).scaleCache = none ∧ (r.addMember m).titleCache = none) := by
  refine ⟨?_, ?_, ?_, fun m => ⟨rfl, rfl, rfl⟩⟩
  · cases hd : r.domainCache <;> simp [CachedResolution.getDomain, hd]
  · cases hs : r.scaleCache <;> simp [CachedResolution.getScale, hs]
  · cases ht : r.titleCache <;> simp [CachedResolution.getTitle, ht]

/-- Witness for C8: a one-member resolution; the second `getDomain` call hits
the cache. -/
theorem cached_getters_memoized_witness :
    ([unitMember [0] channelDefA []] ≠ ([] : List Member))
    ∧ (CachedResolution.ofMembers [unitMember [0] channelDefA []]).getDomain.2.getDomain =
        ((CachedResolution.ofMembers [unitMember [0] channelDefA []]).getDomain.1,
          (CachedResolution.ofMembers [unitMember [0] channelDefA []]).getDomain.2) :=
  ⟨by decide,
    (cached_getters_memoized (CachedResolution.ofMembers [unitMember [0] channelDefA []])
      (by decide)).1⟩

/-- C5: In the shared two-field scope with fields `"a"` and `"b"` and no
explicit titles, `getTitle()` joins the labels in first-seen member-insertion
order with `", "` (giving `"a, b"`), and every member view's own
`getResolution` accessor returns the same Resolution — all three nodes are
bound to the identity `(root, "y")` and observe equal resolution values. -/
theorem shared_title_join_and_shared_instance (sd1 sd2 : Option Interval) :
    boundResolutionRoot (sharedPair sd1 sd2) [] "y" = some []
    ∧ boundResolutionRoot (sharedPair sd1 sd2) [0] "y" = some []
    ∧ boundResolutionRoot (sharedPair sd1 sd2) [1] "y" = some []
    ∧ getResolution (sharedPair sd1 sd2) [0] "y" = getResolution (sharedPair sd1 sd2) [] "y"
    ∧ getResolution (sharedPair sd1 sd2) [1] "y" = getResolution (sharedPair sd1 sd2) [] "y"
    ∧ (getResolution (sharedPair sd1 sd2) [0] "y").map ScaleResolution.getTitle =
        some (some "a, b") :=
  ⟨rfl, rfl, rfl, rfl, rfl, rfl⟩

/-- C2: For a layer whose resolve configuration marks channel `c`
`"independent"`, each unit child becomes its own resolution root for `c`: the
parent's `getResolution(c)` is `undefined`, and each child's
`getResolution(c)` is a private single-member resolution whose domain is only
that child's own extent. -/
theorem independent_layer_private_resolutions (c : String) (d1 d2 : ChannelDef)
    (dx1 dx2 : List (String × Interval)) (e1 e2 : Interval)
    (hp1 : (d1.value.isSome && d1.fieldName.isNone) = false)
    (hp2 : (d2.value.isSome && d2.fieldName.isNone) = false)
    (he1 : (unitMember [0] d1 dx1).extent = some e1)
    (he2 : (unitMember [1] d2 dx2).extent = some e2) :
    getResolution (independentLayer c d1 d2 dx1 dx2) [] c = none
    ∧ resolutionRootOf (independentLayer c d1 d2 dx1 dx2) c [0] = [0]
    ∧ resolutionRootOf (independentLayer c d1 d2 dx1 dx2) c [1] = [1]
    ∧ getResolution (independentLayer c d1 d2 dx1 dx2) [0] c =
        some ⟨[unitMember [0] d1 dx1]⟩
    ∧ getResolution (independentLayer c d1 d2 dx1 dx2) [1] c =
        some ⟨[unitMember [1] d2 dx2]⟩
    ∧ (getResolution (independentLayer c d1 d2 dx1 dx2) [0] c).map
        ScaleResolution.getDomain = some (some e1)
    ∧ (getResolution (independentLayer c d1 d2 dx1 dx2) [1] c).map
        ScaleResolution.getDomain = some (some e2) := by
  have hroot0 : resolutionRootOf (independentLayer c d1 d2 dx1 dx2) c [0] = [0] := by
    simp [resolutionRootOf, rootGo, subviewAt, resolvePolicyOf, independentLayer,
      twoChildLayer, List.lookup]
  have hroot1 : resolutionRootOf (independentLayer c d1 d2 dx1 dx2) c [1] = [1] := by
    simp [resolutionRootOf, rootGo, subviewAt, resolvePolicyOf, independentLayer,
      twoChildLayer, List.lookup]
  have hpaths : unitPathsV (independentLayer c d1 d2 dx1 dx2) = [[0], [1]] := by
    simp [independentLayer, twoChildLayer, unitPathsV, unitPathsL]
  have hmem0 : memberOfUnit (independentLayer c d1 d2 dx1 dx2) [0] c =
      some (unitMember [0] d1 dx1) := by
    simp [memberOfUnit, subviewAt, ViewList.get?, independentLayer, twoChildLayer,
      List.lookup, hp1, unitMember]
  have hmem1 : memberOfUnit (independentLayer c d1 d2 dx1 dx2) [1] c =
      some (unitMember [1] d2 dx2) := by
    simp [memberOfUnit, subviewAt, ViewList.get?, independentLayer, twoChildLayer,
      List.lookup, hp2, unitMember]
  have hmAt0 : membersAt (independentLayer c d1 d2 dx1 dx2) [0] c =
      [unitMember [0] d1 dx1] := by
    simp [membersAt, hpaths, hroot0, hroot1, List.filter, hmem0]
  have hmAt1 : membersAt (independentLayer c d1 d2 dx1 dx2) [1] c =
      [unitMember [1] d2 dx2] := by
    simp [membersAt, hpaths, hroot0, hroot1, List.filter, hmem1]
  have hmAtRoot : membersAt (independentLayer c d1 d2 dx1 dx2) [] c = [] := by
    simp [membersAt, hpaths, hroot0, hroot1, List.filter]
  have hres0 : getResolution (independentLayer c d1 d2 dx1 dx2) [0] c =
      some ⟨[unitMember [0] d1 dx1]⟩ := by
    simp [getResolution, boundResolutionRoot, lookupRootRev, hmAt0]
  have hres1 : getResolution (independentLayer c d1 d2 dx1 dx2) [1] c =
      some ⟨[unitMember [1] d2 dx2]⟩ := by
    simp [getResolution, boundResolutionRoot, lookupRootRev, hmAt1]
  refine ⟨?_, hroot0, hroot1, hres0, hres1, ?_, ?_⟩
  · simp [getResolution, boundResolutionRoot, lookupRootRev, hmAtRoot]
  · rw [hres0]
    simp [ScaleResolution.getDomain, List.filterMap, he1, mergeAll, mergeStep]
  · rw [hres1]
    simp [ScaleResolution.getDomain, List.filterMap, he2, mergeAll, mergeStep]

/-- Witness for C2 at the test's concrete spec: fields `"a"`/`"b"` with scale
domains `[1,2]` and `[4,5]` — the parent resolves to `undefined` while the
children keep `[1,2]` and `[4,5]` (never the merged `[1,5]`). -/
theorem independent_layer_private_resolutions_witness :
    getResolution independentTree [] "y" = none
    ∧ (getResolution independentTree [0] "y").map ScaleResolution.getDomain =
        some (some ⟨1, 2⟩)
    ∧ (getResolution independentTree [1] "y").map ScaleResolution.getDomain =
        some (some ⟨4, 5⟩) := by
  have h := independent_layer_private_resolutions "y" channelDefA channelDefB [] []
    ⟨1, 2⟩ ⟨4, 5⟩ (by decide) (by decide) (by decide) (by decide)
  exact ⟨h.1, h.2.2.2.2.2.1, h.2.2.2.2.2.2⟩

/-- Counterexample to C3 as stated: in the shared test scope, the child node
`[0]` is not the resolution root for `"y"` (its root is the tree root `[]`,
and it owns no members), yet its `getResolution("y")` is not `undefined` — it
returns the ancestor's shared resolution, exactly as the repository's test
`"Shared scales have joined titles"` requires. -/
theorem getResolution_child_sees_shared_counterexample :
    resolutionRootOf sharedTree "y" [0] = []
    ∧ membersAt sharedTree [0] "y" = []
    ∧ getResolution sharedTree [0] "y" ≠ none
    ∧ getResolution sharedTree [0] "y" = getResolution sharedTree [] "y"
    ∧ boundResolutionRoot sharedTree [0] "y" = some [] := by
  decide

theorem lookupRootRev_some (tree : ViewSpec) (c : String) (q : List Nat) :
    ∀ root : List Nat, lookupRootRev tree c q = some root →
    membersAt tree root c ≠ [] ∧ ∃ k : Nat, root = (q.drop k).reverse := by
  induction q with
  | nil =>
    intro root h
    rw [lookupRootRev] at h
    split at h
    · cases h
    · cases h
      rename_i hne
      refine ⟨?_, 0, rfl⟩
      simpa [List.isEmpty_iff] using hne
  | cons i rest ih =>
    intro root h
    rw [lookupRootRev] at h
    split at h
    · obtain ⟨hm, k, hk⟩ := ih root h
      exact ⟨hm, k + 1, by simpa using hk⟩
    · cases h
      rename_i hne
      refine ⟨?_, 0, rfl⟩
      simpa [List.isEmpty_iff] using hne

theorem lookupRootRev_none (tree : ViewSpec) (c : String) (q : List Nat) :
    (∀ k : Nat, membersAt tree ((q.drop k).reverse) c = []) →
    lookupRootRev tree c q = none := by
  induction q with
  | nil =>
    intro h
    rw [lookupRootRev]
    have h0 := h 0
    simp only [List.drop_nil, List.reverse_nil] at h0
    simp [h0]
  | cons i rest ih =>
    intro h
    rw [lookupRootRev]
    have h0 := h 0
    simp only [List.drop_zero] at h0
    simp only [h0]
    exact ih (fun k => h (k + 1))

theorem getResolution_of_members (tree : ViewSpec) (p : List Nat) (c : String)
    (h : membersAt tree p c ≠ []) :
    getResolution tree p c = some ⟨membersAt tree p c⟩ := by
  have hne : (membersAt tree p c).isEmpty = false := by
    simpa [List.isEmpty_iff] using h
  rw [getResolution, boundResolutionRoot]
  cases hq : p.reverse with
  | nil =>
    have hp : p = [] := by simpa using congrArg List.reverse hq
    subst hp
    simp only [List.reverse_nil] at hq
    rw [lookupRootRev]
    simp [hne]
  | cons i rest =>
    have hp : (i :: rest).reverse = p := by
      rw [← hq, List.reverse_reverse]
    rw [lookupRootRev]
    rw [hp]
    simp [hne]

/-- C3 (amended): `getResolution(channel)` returns the node's own
ScaleResolution when the node is a resolution root with at least one member;
otherwise it returns the nonempty resolution of the nearest ancestor that is
such a root — so an ancestor's resolution IS visible through this accessor
for non-root descendants in a shared scope — and `undefined` only when no
ancestor-or-self owns a nonempty resolution. -/
theorem getResolution_binding (tree : ViewSpec) (p : List Nat) (c : String) :
    (membersAt tree p c ≠ [] → getResolution tree p c = some ⟨membersAt tree p c⟩)
    ∧ (∀ r : ScaleResolution, getResolution tree p c = some r →
        ∃ n : Nat, r = ⟨membersAt tree (p.take n) c⟩
          ∧ membersAt tree (p.take n) c ≠ []
          ∧ getResolution tree (p.take n) c = some r)
    ∧ ((∀ n : Nat, membersAt tree (p.take n) c = []) → getResolution tree p c = none) := by
  refine ⟨getResolution_of_members tree p c, ?_, ?_⟩
  · intro r hr
    rw [getResolution, boundResolutionRoot] at hr
    cases hlk : lookupRootRev tree c p.reverse with
    | none => rw [hlk] at hr; cases hr
    | some root =>
      rw [hlk] at hr
      simp only [Option.map_some'] at hr
      obtain rfl := Option.some.inj hr
      obtain ⟨hm, k, hk⟩ := lookupRootRev_some tree c p.reverse root hlk
      have hroot : root = p.take (p.length - k) := by
        rw [hk, List.drop_reverse, List.reverse_reverse]
      refine ⟨p.length - k, ?_, ?_, ?_⟩
      · rw [← hroot]
      · rw [← hroot]; exact hm
      · rw [← hroot]
        exact getResolution_of_members tree root c hm
  · intro h
    rw [getResolution, boundResolutionRoot]
    rw [lookupRootRev_none tree c p.reverse ?_]
    · rfl
    · intro k
      rw [List.drop_reverse, List.reverse_reverse]
      exact h (p.length - k)

/-- Witness for C3 (amended) at the shared test tree: the root owns members,
so its own resolution is returned. -/
theorem getResolution_binding_witness :
    (membersAt sharedTree [] "y" ≠ [])
    ∧ getResolution sharedTree [] "y" = some ⟨membersAt sharedTree [] "y"⟩ :=
  ⟨by decide, (getResolution_binding sharedTree [] "y").1 (by decide)⟩

/-- C6: A ScaleResolution with zero members — built speculatively and never
given a member, or emptied by `removeMember` — returns `undefined` from
`getDomain`, `getScale` and `getTitle` rather than throwing or returning a
stale cached domain (caches are invalidated by `removeMember`), and the
registry lookup `getResolution(channel)` never exposes an empty resolution. -/
theorem empty_resolution_soft_undefined :
    ((CachedResolution.ofMembers []).getDomain.1 = none
      ∧ (CachedResolution.ofMembers []).getScale.1 = none
      ∧ (CachedResolution.ofMembers []).getTitle.1 = none)
    ∧ (∀ (r : CachedResolution) (v : List Nat),
        (r.removeMember v).members = [] →
        (r.removeMember v).getDomain.1 = none
        ∧ (r.removeMember v).getScale.1 = none
        ∧ (r.removeMember v).getTitle.1 = none)
    ∧ (∀ (tree : ViewSpec) (p : List Nat) (c : String) (r : ScaleResolution),
        getResolution tree p c = some r → r.members ≠ []) := by
  refine ⟨⟨rfl, rfl, rfl⟩, ?_, ?_⟩
  · intro r v h
    have hr : r.removeMember v = CachedResolution.ofMembers [] := by
      rw [show (r.removeMember v).members =
          r.members.filter (fun m => m.view != v) from rfl] at h
      rw [show r.removeMember v =
          CachedResolution.mk (r.members.filter (fun m => m.view != v))
            none none none from rfl]
      rw [h]
      rfl
    rw [hr]
    exact ⟨rfl, rfl, rfl⟩
  · intro tree p c r hr
    rw [getResolution, boundResolutionRoot] at hr
    cases hlk : lookupRootRev tree c p.reverse with
    | none => rw [hlk] at hr; cases hr
    | some root =>
      rw [hlk] at hr
      simp only [Option.map_some'] at hr
      obtain rfl := Option.some.inj hr
      obtain ⟨hm, _⟩ := lookupRootRev_some tree c p.reverse root hlk
      simpa using hm

/-- Witness for C6: a one-member resolution emptied by `removeMember` yields
`undefined` from all getters. -/
theorem empty_resolution_soft_undefined_witness :
    ((CachedResolution.ofMembers [unitMember [0] channelDefA []]).removeMember [0]).members = []
    ∧ ((CachedResolution.ofMembers [unitMember [0] channelDefA []]).removeMember [0]).getDomain.1 = none
    ∧ ((CachedResolution.ofMembers [unitMember [0] channelDefA []]).removeMember [0]).getScale.1 = none
    ∧ ((CachedResolution.ofMembers [unitMember [0] channelDefA []]).removeMember [0]).getTitle.1 = none := by
  have h := empty_resolution_soft_undefined.2.1
    (CachedResolution.ofMembers [unitMember [0] channelDefA []]) [0] (by decide)
  exact ⟨by decide, h.1, h.2.1, h.2.2⟩

end GenomeSpy
